import Mathlib

/-!
Verification development for the star_handler spatial-statistics core.

This file gives a shallow embedding, in Lean 4, of the analyzer workflow of
the star_handler repository (partitioning by grouping tag, the parallel
executor's result collection, union-find clustering, radial-distribution
normalization, Euler-angle geometry, and the analyzer error boundary), and
proves the behavioural properties stated about those components.

Modelling conventions:
- pandas DataFrames are lists of rows; a grouping tag is an accessor
  function from rows to its (string) value.
- numpy float arrays are modelled exactly: finite values are rationals, and
  where IEEE special values matter an extended type with nan / +inf / -inf
  and IEEE propagation rules is used (exact arithmetic; rounding and
  overflow of in-range finite values are not modelled).
- Python dicts keyed by insertion order are association lists.
- functions that can raise are modelled in Except; an exception's payload is
  its message.
-/

namespace StarHandler

/-! ## Association-list utilities (Python dict / file-system models) -/

/-- First-occurrence-preserving deduplication, the order semantics of
pandas unique on a column. -/
def dedupFirst {V : Type} [DecidableEq V] (l : List V) : List V :=
  l.foldl (fun acc v => if v ∈ acc then acc else acc ++ [v]) []

/-- Overwrite-or-append update of an association list; this is the
behaviour of writing a file at a path: an existing file at the same path is
replaced, otherwise a new entry appears. -/
def assocSet {K V : Type} [DecidableEq K] : List (K × V) → K → V → List (K × V)
  | [], k, v => [(k, v)]
  | (k', v') :: rest, k, v =>
    if k' = k then (k, v) :: rest else (k', v') :: assocSet rest k v

/-! ## Partitioner: selection.classify_star

Source: src/star_handler/core/selection.py, classify_star.  The STAR data
dictionary is modelled by its particles table; `key` is the accessor for the
grouping tag column (for partial_match > 0 it is the composition with the
'/'-prefix derivation, which does not change the structure below).  The
output name of a written sub-file is derived from the string value by
value.replace('/', '_').split('.')[0]; the replace with a one-character
pattern is a character map and split('.')[0] keeps the characters before the
first dot. -/

structure StarData (Row : Type) where
  particles : List Row

/-- Output file name derivation of classify_star for a string tag value:
value.replace('/', '_').split('.')[0], then the ".star" suffix. -/
def output_name (value : String) : String :=
  String.mk (((value.data).map (fun c => if c = '/' then '_' else c)).takeWhile
    (fun c => c ≠ '.')) ++ ".star"

/-- Loop body of classify_star: compute the subset of the (captured)
particles table whose key equals the current value, record the written
sub-file, and assign the subset to the mutable star_data dictionary's
particles entry in place. -/
def classifyStep {Row : Type} (key : Row → String) (particles : List Row)
    (acc : List (String × List Row) × StarData Row) (v : String) :
    List (String × List Row) × StarData Row :=
  let subset := particles.filter (fun r => key r = v)
  (acc.1 ++ [(output_name v, subset)], StarData.mk subset)

/-- Embedding of classify_star: the unique tag values in first-occurrence
order, then one written sub-file (file name, row subset) per value.  The
second component is the final state of the mutated star_data argument. -/
def classify_star {Row : Type} (key : Row → String) (sd : StarData Row) :
    List (String × List Row) × StarData Row :=
  (dedupFirst (sd.particles.map key)).foldl (classifyStep key sd.particles) ([], sd)

/-- Final file-system contents after classify_star has written all its
sub-files in order: a later write to the same path overwrites the earlier
one. -/
def write_files {Row : Type} (subs : List (String × List Row)) : List (String × List Row) :=
  subs.foldl (fun fs p => assocSet fs p.1 p.2) []

/-- Embedding of BaseAnalyzer.prepare_star_data restricted to what is
relevant here: the table handed to classify_star is returned as the
processed star data (the same, mutated, dictionary object), together with
the written sub-files.  The coordinate-correction collaborators and the
minimum-particle-count file filter act before respectively after this and do
not change the returned star data object. -/
def prepare_star_data {Row : Type} (key : Row → String) (sd : StarData Row) :
    StarData Row × List (String × List Row) :=
  let res := classify_star key sd
  (res.2, res.1)

/-! ## Parallel executor: core/parallel.py -/

/-- Python exception values crossing the analyzer interfaces, carried with
their message. -/
inductive PyError : Type
  | processingError (msg : String)
  | analysisError (msg : String)
  | otherError (msg : String)
deriving DecidableEq

/-- Message of an exception, Python str(e). -/
def PyError.str : PyError → String
  | .processingError m => m
  | .analysisError m => m
  | .otherError m => m

/-- Sequential collection of the async results in submission order: the
loop [r.get() for r in results].  The first get that raises propagates its
exception; otherwise all results are returned in submission order. -/
def collectGets {β : Type} : List (Except PyError β) → Except PyError (List β)
  | [] => Except.ok []
  | r :: rs =>
    match r with
    | Except.ok b =>
      match collectGets rs with
      | Except.ok bs => Except.ok (b :: bs)
      | Except.error e => Except.error e
    | Except.error e => Except.error e

/-- Embedding of parallel_process_tomograms.  Each file's work item is
submitted (the map), results are collected in submission order, and any
exception escaping collection is re-raised as ProcessingError wrapping the
original message.  Scheduling concurrency only affects timing, not this
observable result. -/
def parallel_process_tomograms {α β : Type} (star_files : List α)
    (process_func : α → Except PyError β) : Except PyError (List β) :=
  match collectGets (star_files.map process_func) with
  | Except.ok l => Except.ok l
  | Except.error e =>
    Except.error (PyError.processingError ("Parallel processing failed: " ++ e.str))

/-! ## Analyzer template error boundary: analyzers/base.py, BaseAnalyzer.process -/

/-- Body of BaseAnalyzer.process: prepare, parallel per-partition analysis,
combine, report, returning the combined results.  Each stage may raise. -/
def processBody {A B C : Type} (prepare : Except PyError A)
    (run_parallel : A → Except PyError B) (combine : B → Except PyError C)
    (report : C → Except PyError Unit) : Except PyError C := do
  let a ← prepare
  let b ← run_parallel a
  let c ← combine b
  let _ ← report c
  pure c

/-- Embedding of BaseAnalyzer.process: the whole body runs inside one
try/except that re-raises any exception as AnalysisError with the original
message appended to "Analysis failed: ". -/
def BaseAnalyzer_process {A B C : Type} (prepare : Except PyError A)
    (run_parallel : A → Except PyError B) (combine : B → Except PyError C)
    (report : C → Except PyError Unit) : Except PyError C :=
  match processBody prepare run_parallel combine report with
  | Except.ok c => Except.ok c
  | Except.error e => Except.error (PyError.analysisError ("Analysis failed: " ++ e.str))

/-! ## Extended float values: core/matrix_math.py numeric model

The numpy semantics that matter to the guard logic is modelled exactly: a
value is NaN, +inf, -inf, or a finite rational, with IEEE propagation rules
for multiplication, division and the positivity test (NaN compares false).
Rounding and overflow of in-range finite values are not modelled. -/

inductive EFloat : Type
  | nan
  | inf
  | ninf
  | fin (q : ℚ)
deriving DecidableEq

/-- IEEE multiplication on extended values. -/
def EFloat.mul : EFloat → EFloat → EFloat
  | nan, _ => nan
  | _, nan => nan
  | inf, inf => inf
  | inf, ninf => ninf
  | ninf, inf => ninf
  | ninf, ninf => inf
  | inf, fin q => if 0 < q then inf else if q < 0 then ninf else nan
  | fin q, inf => if 0 < q then inf else if q < 0 then ninf else nan
  | ninf, fin q => if 0 < q then ninf else if q < 0 then inf else nan
  | fin q, ninf => if 0 < q then ninf else if q < 0 then inf else nan
  | fin a, fin b => fin (a * b)

/-- IEEE (numpy true_divide) division on extended values: x/0 is NaN for
x = 0 and a signed infinity otherwise, with a warning rather than an
exception; finite/inf is 0; inf/inf is NaN. -/
def EFloat.div : EFloat → EFloat → EFloat
  | nan, _ => nan
  | _, nan => nan
  | fin a, fin b =>
    if b = 0 then (if a = 0 then nan else if 0 < a then inf else ninf) else fin (a / b)
  | fin _, inf => fin 0
  | fin _, ninf => fin 0
  | inf, fin b => if 0 ≤ b then inf else ninf
  | ninf, fin b => if 0 ≤ b then ninf else inf
  | inf, inf => nan
  | inf, ninf => nan
  | ninf, inf => nan
  | ninf, ninf => nan

/-- Strict positivity test (the numpy comparison norm > 0; NaN compares
false). -/
def EFloat.gtZero : EFloat → Bool
  | inf => true
  | fin q => decide (0 < q)
  | _ => false

/-- Binary64 value of numpy pi. -/
def npPi : ℚ := 884279719003555 / 281474976710656

/-! ## Radial normalization kernel: matrix_math.shell_normalize -/

/-- Spherical shell volume of bin i: 4/3 pi (bins[i+1]^3 - bins[i]^3),
finite exact arithmetic on the bin edges. -/
def shell_volume (bins : List ℚ) (i : ℕ) : ℚ :=
  4 / 3 * npPi * ((bins.getD (i + 1) 0) ^ 3 - (bins.getD i 0) ^ 3)

/-- Expected-count denominator of bin i in shell_normalize:
norm = (n_particles / box_volume) * shell_volume. -/
def shell_norm (bins : List ℚ) (box_volume : EFloat) (n_particles : ℕ) (i : ℕ) : EFloat :=
  EFloat.mul (EFloat.div (EFloat.fin (n_particles : ℚ)) box_volume)
    (EFloat.fin (shell_volume bins i))

/-- Embedding of shell_normalize: np.divide(hist / n_particles, norm,
out=zeros, where=norm > 0) — bins whose mask is false keep the zero from
the out array; the histogram counts and bin edges are finite. -/
def shell_normalize (hist : List ℚ) (bins : List ℚ) (box_volume : EFloat)
    (n_particles : ℕ) : List EFloat :=
  (List.range (bins.length - 1)).map (fun i =>
    if EFloat.gtZero (shell_norm bins box_volume n_particles i) then
      EFloat.div
        (EFloat.div (EFloat.fin (hist.getD i 0)) (EFloat.fin (n_particles : ℚ)))
        (shell_norm bins box_volume n_particles i)
    else EFloat.fin 0)

/-! ## Radial analyzer: analyzers/radial.py -/

/-- Histogram counts of matrix_math.safe_histogram via np.histogram: each
bin is half-open [lo, hi) except the last, which is closed; values outside
the edges are dropped; an empty distance list yields a zero histogram. -/
def safe_histogram (distances : List ℚ) (bins : List ℚ) : List ℚ :=
  if distances.length = 0 then List.replicate (bins.length - 1) 0
  else
    (List.range (bins.length - 1)).map (fun i =>
      ((distances.filter (fun d =>
        decide (bins.getD i 0 ≤ d) &&
        (decide (d < bins.getD (i + 1) 0) ||
          (decide (i = bins.length - 2) && decide (d = bins.getD (i + 1) 0))))).length : ℚ))

/-- Embedding of matrix_math.gr: histogram then shell normalization. -/
def gr (distances bins : List ℚ) (box_volume : EFloat) (n : ℕ) : List EFloat :=
  shell_normalize (safe_histogram distances bins) bins box_volume n

/-- Expected pair count per shell of matrix_math.local_density:
C(n,2) * (shell_volume / box_volume). -/
def expected_pairs (bins : List ℚ) (box_volume : EFloat) (n : ℕ) (i : ℕ) : EFloat :=
  EFloat.mul (EFloat.fin ((n : ℚ) * ((n : ℚ) - 1) / 2))
    (EFloat.div (EFloat.fin (shell_volume bins i)) box_volume)

/-- Embedding of matrix_math.local_density: np.divide(hist, expected_pairs,
out=zeros, where=expected_pairs != 0). -/
def local_density (distances bins : List ℚ) (box_volume : EFloat) (n : ℕ) : List EFloat :=
  (List.range (bins.length - 1)).map (fun i =>
    if expected_pairs bins box_volume n i = EFloat.fin 0 then EFloat.fin 0
    else
      EFloat.div (EFloat.fin ((safe_histogram distances bins).getD i 0))
        (expected_pairs bins box_volume n i))

/-- Center of bin i: 0.5 * (bins[i+1] + bins[i]). -/
def bin_center (bins : List ℚ) (i : ℕ) : ℚ :=
  (bins.getD (i + 1) 0 + bins.getD i 0) / 2

/-- Embedding of matrix_math.distance_weighted: np.divide(hist, center^2,
out=zeros, where=center^2 != 0). -/
def distance_weighted (distances bins : List ℚ) : List EFloat :=
  (List.range (bins.length - 1)).map (fun i =>
    if bin_center bins i ^ 2 = 0 then EFloat.fin 0
    else EFloat.fin ((safe_histogram distances bins).getD i 0 / bin_center bins i ^ 2))

structure RadialConfig where
  bin_size : ℚ
  min_distance : ℚ
  max_distance : ℚ

/-- Exact model of np.arange(start, stop, step) for positive step: values
start + i * step for i below the ceiling of (stop - start) / step. -/
def arangeQ (start stop step : ℚ) : List ℚ :=
  (List.range (Int.toNat ⌈(stop - start) / step⌉)).map (fun i => start + i * step)

/-- Bin edges of RadialAnalyzer._create_bins:
np.arange(0, max_distance + bin_size, bin_size). -/
def create_bins (cfg : RadialConfig) : List ℚ :=
  arangeQ 0 (cfg.max_distance + cfg.bin_size) cfg.bin_size

/-- Bin centers matching _create_bins. -/
def bin_centers (bins : List ℚ) : List ℚ :=
  (List.range (bins.length - 1)).map (fun i => bin_center bins i)

def list_max (l : List ℚ) : ℚ := l.foldl max (l.headD 0)

def list_min (l : List ℚ) : ℚ := l.foldl min (l.headD 0)

def listMean (l : List ℚ) : ℚ := l.sum / l.length

/-- Embedding of RadialAnalyzer._calculate_box_volume: per-axis coordinate
ranges floored at 1.0, their product; fallback mean(distances)^3 * n (or
1000.0 with no distances) when the product is non-positive; 1.0 with fewer
than two particles. -/
def calculate_box_volume (coords : List (ℚ × ℚ × ℚ)) (distances : List ℚ) (n : ℕ) : ℚ :=
  if n < 2 then 1
  else
    let rx := max (list_max (coords.map (fun c => c.1)) - list_min (coords.map (fun c => c.1))) 1
    let ry := max (list_max (coords.map (fun c => c.2.1)) - list_min (coords.map (fun c => c.2.1))) 1
    let rz := max (list_max (coords.map (fun c => c.2.2)) - list_min (coords.map (fun c => c.2.2))) 1
    let box := rx * ry * rz
    if box ≤ 0 then
      (if 0 < distances.length then (listMean distances) ^ 3 * (n : ℚ) else 1000)
    else box

/-- Embedding of RadialAnalyzer._calculate_distributions: with fewer than 3
particles all three distributions are zero arrays (np.zeros_like of the bin
centers) and the insufficiency flag is set; otherwise the three normalized
curves are computed. -/
def calculate_distributions (distances bins : List ℚ) (box_volume : ℚ) (n : ℕ) :
    List EFloat × List EFloat × List EFloat × Bool :=
  if n < 3 then
    (List.replicate (bins.length - 1) (EFloat.fin 0),
     List.replicate (bins.length - 1) (EFloat.fin 0),
     List.replicate (bins.length - 1) (EFloat.fin 0),
     true)
  else
    (gr distances bins (EFloat.fin box_volume) n,
     local_density distances bins (EFloat.fin box_volume) n,
     distance_weighted distances bins,
     false)

/-- Upper-triangular (i < j) pairwise distances extracted from the distance
matrix in row-major order (np.triu_indices_from, k=1). -/
def triu_distances (n : ℕ) (dm : ℕ → ℕ → ℚ) : List ℚ :=
  (List.range n).flatMap (fun i =>
    ((List.range n).filter (fun j => i < j)).map (fun j => dm i j))

/-- Per-partition analysis result of the radial analyzer. -/
structure RadialResult where
  distances : List ℚ
  raw_distances : List ℚ
  particle_density : ℚ
  g_r : List EFloat
  local_density : List EFloat
  distance_weighted : List EFloat
  insufficient_particles : Bool

/-- Near-field exclusion of _analyze: results[key][mask] = 0 where the bin
center is below min_distance. -/
def apply_min_mask (min_distance : ℚ) (centers : List ℚ) (arr : List EFloat) : List EFloat :=
  List.zipWith (fun c x => if c < min_distance then EFloat.fin 0 else x) centers arr

/-- Embedding of RadialAnalyzer._analyze. -/
def RadialAnalyzer_analyze (cfg : RadialConfig) (coords : List (ℚ × ℚ × ℚ))
    (dm : ℕ → ℕ → ℚ) : RadialResult :=
  let n := coords.length
  let distances := triu_distances n dm
  let bins := create_bins cfg
  let centers := bin_centers bins
  let box_volume := calculate_box_volume coords distances n
  let dists := calculate_distributions distances bins box_volume n
  { distances := centers
    raw_distances := distances
    particle_density := if 0 < box_volume then (n : ℚ) / box_volume else 0
    g_r := apply_min_mask cfg.min_distance centers dists.1
    local_density := apply_min_mask cfg.min_distance centers dists.2.1
    distance_weighted := apply_min_mask cfg.min_distance centers dists.2.2.1
    insufficient_particles := dists.2.2.2 }

/-- Data files written by RadialAnalyzer._save_tomogram_results: nothing at
all for a partition flagged with insufficient particles, otherwise one data
file per distribution type. -/
def RadialAnalyzer_save (tomogram : String) (r : RadialResult) : List String :=
  if r.insufficient_particles then []
  else [tomogram ++ "_rdf", tomogram ++ "_local_density", tomogram ++ "_distance_weighted"]

/-- Accumulated state of RadialAnalyzer._collect_tomogram_data. -/
structure CollectedData where
  dfs : List (String × RadialResult)
  all_distances : List ℚ
  density_data : List (String × ℚ)
  skipped : List String

/-- Loop body of _collect_tomogram_data: a partition flagged insufficient
is recorded as skipped and contributes nothing else; a valid partition
contributes its distribution data frame, its raw distances, and its density
when the density is finite and positive. -/
def collect_step (acc : CollectedData) (p : String × RadialResult) : CollectedData :=
  if p.2.insufficient_particles then
    { acc with skipped := acc.skipped ++ [p.1] }
  else
    { dfs := acc.dfs ++ [p]
      all_distances := acc.all_distances ++ p.2.raw_distances
      density_data := acc.density_data ++
        (if 0 < p.2.particle_density then [(p.1, p.2.particle_density)] else [])
      skipped := acc.skipped }

/-- Embedding of RadialAnalyzer._collect_tomogram_data, the stage that
feeds the combine step's per-bin averages. -/
def collect_tomogram_data (results : List (String × RadialResult)) : CollectedData :=
  results.foldl collect_step (CollectedData.mk [] [] [] [])

/-! ## Euler-angle geometry: matrix_math.euler_to_vector and
calculate_orientation_angle -/

structure V3 where
  x : ℝ
  y : ℝ
  z : ℝ

noncomputable def deg2rad (d : ℝ) : ℝ := d * Real.pi / 180

/-- Rotation about the z axis by angle a (radians). -/
noncomputable def rotZ (a : ℝ) (v : V3) : V3 :=
  V3.mk (Real.cos a * v.x - Real.sin a * v.y) (Real.sin a * v.x + Real.cos a * v.y) v.z

/-- Rotation about the y axis by angle a (radians). -/
noncomputable def rotY (a : ℝ) (v : V3) : V3 :=
  V3.mk (Real.cos a * v.x + Real.sin a * v.z) v.y (-(Real.sin a) * v.x + Real.cos a * v.z)

/-- Semantics of scipy Rotation.from_euler('zyz', [rot, tilt, psi],
degrees=True).apply(v): a lower-case axis string selects EXTRINSIC
rotations about the fixed axes, applied in argument order — first about z
by rot, then about y by tilt, then about z by psi; the net matrix is
Rz(psi) Ry(tilt) Rz(rot). -/
noncomputable def scipy_from_euler_zyz_apply (rot tilt psi : ℝ) (v : V3) : V3 :=
  rotZ (deg2rad psi) (rotY (deg2rad tilt) (rotZ (deg2rad rot) v))

/-- Embedding of matrix_math.euler_to_vector: the scipy extrinsic zyz
rotation applied to the unit vector (0, 0, 1), then the first component
negated. -/
noncomputable def euler_to_vector (rot tilt psi : ℝ) : V3 :=
  let w := scipy_from_euler_zyz_apply rot tilt psi (V3.mk 0 0 1)
  V3.mk (-w.x) w.y w.z

/-- Modelled from the spec's words, for comparison with euler_to_vector: an
INTRINSIC Z-Y-Z rotation composed from (rot, tilt, psi) — net matrix
Rz(rot) Ry(tilt) Rz(psi) — applied to (0, 0, 1), then the first component
negated. -/
noncomputable def euler_to_vector_intrinsic (rot tilt psi : ℝ) : V3 :=
  let w := rotZ (deg2rad rot) (rotY (deg2rad tilt) (rotZ (deg2rad psi) (V3.mk 0 0 1)))
  V3.mk (-w.x) w.y w.z

noncomputable def vdot (a b : V3) : ℝ := a.x * b.x + a.y * b.y + a.z * b.z

noncomputable def vnorm (v : V3) : ℝ := Real.sqrt (v.x ^ 2 + v.y ^ 2 + v.z ^ 2)

noncomputable def vnormalize (v : V3) : V3 := V3.mk (v.x / vnorm v) (v.y / vnorm v) (v.z / vnorm v)

/-- Embedding of matrix_math.calculate_orientation_angle: normalize both
vectors, clip their dot product to [-1, 1] (np.clip), inverse cosine,
convert to degrees (multiply by 180 / pi). -/
noncomputable def calculate_orientation_angle (vec1 vec2 : V3) : ℝ :=
  Real.arccos (max (-1) (min (vdot (vnormalize vec1) (vnormalize vec2)) 1)) * (180 / Real.pi)

/-! ## Union-find clustering: matrix_math.UnionFind and
find_particle_clusters -/

/-- State of matrix_math.UnionFind: parent, rank and size arrays. -/
structure UnionFind where
  parent : List ℕ
  rank : List ℕ
  size : List ℕ

/-- UnionFind.__init__(n): parent = range(n), rank = zeros, size = ones. -/
def UnionFind.init (n : ℕ) : UnionFind :=
  UnionFind.mk (List.range n) (List.replicate n 0) (List.replicate n 1)

/-- Recursive find with path compression:
if parent[x] != x: parent[x] = find(parent[x]); return parent[x].
The source recursion is unbounded; under the union-find invariant the
parent chain is acyclic so a fuel of the array length always suffices, and
every property proved below holds for every fuel value. -/
def UnionFind.findAux : ℕ → UnionFind → ℕ → UnionFind × ℕ
  | 0, uf, x => (uf, x)
  | fuel + 1, uf, x =>
    let p := uf.parent.getD x x
    if p = x then (uf, x)
    else
      let r := UnionFind.findAux fuel uf p
      (UnionFind.mk (r.1.parent.set x r.2) r.1.rank r.1.size, r.2)

def UnionFind.find (uf : UnionFind) (x : ℕ) : UnionFind × ℕ :=
  UnionFind.findAux uf.parent.length uf x

/-- UnionFind.union by rank with size bookkeeping: find both roots (the
second find observes the first's compressed state), return unchanged when
equal; otherwise swap so the higher-rank root absorbs the other, re-point
the smaller root's parent, add the sizes, and bump the rank on ties. -/
def UnionFind.union (uf : UnionFind) (x y : ℕ) : UnionFind :=
  let r1 := uf.find x
  let r2 := r1.1.find y
  let uf2 := r2.1
  let px0 := r1.2
  let py0 := r2.2
  if px0 = py0 then uf2
  else
    let px := if uf2.rank.getD px0 0 < uf2.rank.getD py0 0 then py0 else px0
    let py := if uf2.rank.getD px0 0 < uf2.rank.getD py0 0 then px0 else py0
    let uf3 := UnionFind.mk (uf2.parent.set py px) uf2.rank
      (uf2.size.set px (uf2.size.getD px 0 + uf2.size.getD py 0))
    if uf3.rank.getD px 0 = uf3.rank.getD py 0 then
      UnionFind.mk uf3.parent (uf3.rank.set px (uf3.rank.getD px 0 + 1)) uf3.size
    else uf3

/-- Insertion-ordered dict update of the cluster collection loop:
if root not in cluster_dict: cluster_dict[root] = [];
cluster_dict[root].append(i). -/
def dictInsert (d : List (ℕ × List ℕ)) (k i : ℕ) : List (ℕ × List ℕ) :=
  match d with
  | [] => [(k, [i])]
  | (k', vs) :: rest =>
    if k' = k then (k, vs ++ [i]) :: rest else (k', vs) :: dictInsert rest k i

/-- Insertion-ordered histogram update:
size_distribution[size] = size_distribution.get(size, 0) + 1. -/
def histAdd (h : List (ℕ × ℕ)) (s : ℕ) : List (ℕ × ℕ) :=
  match h with
  | [] => [(s, 1)]
  | (s', c) :: rest => if s' = s then (s, c + 1) :: rest else (s', c) :: histAdd rest s

/-- Dictionary lookup with default 0. -/
def histLookup (h : List (ℕ × ℕ)) (s : ℕ) : ℕ :=
  match h with
  | [] => 0
  | (s', c) :: rest => if s' = s then c else histLookup rest s

/-- Indices of the strict upper triangle that are adjacency-true, in
row-major order: np.where(np.triu(adjacency_matrix, k=1)). -/
def triuPairs (n : ℕ) (adj : ℕ → ℕ → Bool) : List (ℕ × ℕ) :=
  (List.range n).flatMap (fun i =>
    ((List.range n).filter (fun j => decide (i < j) && adj i j)).map (fun j => (i, j)))

/-- Loop body of the cluster collection: find the particle's root
(threading the path-compressed state) and append the particle to its root's
bucket in the insertion-ordered dict. -/
def collectStep (st : UnionFind × List (ℕ × List ℕ)) (i : ℕ) :
    UnionFind × List (ℕ × List ℕ) :=
  let fr := st.1.find i
  (fr.1, dictInsert st.2 fr.2 i)

/-- Cluster collection loop of find_particle_clusters over all particle
indices. -/
def collectClusters (n : ℕ) (uf : UnionFind) : UnionFind × List (ℕ × List ℕ) :=
  (List.range n).foldl collectStep (uf, [])

/-- Embedding of matrix_math.find_particle_clusters: union all
upper-triangular adjacency-true pairs, collect clusters by root, and tally
the cluster-size distribution. -/
def find_particle_clusters (n : ℕ) (adj : ℕ → ℕ → Bool) :
    List (List ℕ) × List (ℕ × ℕ) :=
  let uf0 := UnionFind.init n
  let uf1 := (triuPairs n adj).foldl (fun uf p => uf.union p.1 p.2) uf0
  let st := collectClusters n uf1
  let clusters := st.2.map Prod.snd
  let size_distribution := clusters.foldl (fun h c => histAdd h c.length) []
  (clusters, size_distribution)

/-- Invariant used for the isolated-particle property of
find_particle_clusters: particle i is its own parent and is in nobody
else's parent chain (no other index has i as its parent). -/
def isolatedInv (i : ℕ) (uf : UnionFind) : Prop :=
  uf.parent.getD i i = i ∧ ∀ j, j ≠ i → uf.parent.getD j j ≠ i

/-! ## Cluster analyzer: analyzers/cluster.py -/

structure ClusterConfig where
  threshold : ℚ
  min_cluster_size : ℕ

structure ClusterStats where
  n_clusters : ℕ
  total_particles : ℕ
  largest_size : ℕ
  avg_size : ℚ
deriving DecidableEq

structure ClusterResult where
  clusters : List (List ℕ)
  size_dist : List (ℕ × ℕ)
  statistics : ClusterStats
deriving DecidableEq

/-- Boolean adjacency built by ClusterAnalyzer._analyze: the distance
matrix thresholded at cfg.threshold (dist <= threshold), with the diagonal
filled False (np.fill_diagonal). -/
def ClusterAnalyzer_adjacency (cfg : ClusterConfig) (dm : ℕ → ℕ → ℚ) : ℕ → ℕ → Bool :=
  fun i j => decide (dm i j ≤ cfg.threshold) && !(decide (i = j))

/-- Embedding of ClusterAnalyzer._analyze on an n-particle distance matrix:
threshold the matrix into an adjacency relation, run find_particle_clusters,
drop clusters below min_cluster_size, and compute the statistics (all-zero
with an empty cluster list when nothing survives). -/
def ClusterAnalyzer_analyze (cfg : ClusterConfig) (n : ℕ) (dm : ℕ → ℕ → ℚ) :
    ClusterResult :=
  let res := find_particle_clusters n (ClusterAnalyzer_adjacency cfg dm)
  let filtered := res.1.filter (fun c => cfg.min_cluster_size ≤ c.length)
  if filtered.isEmpty then
    ClusterResult.mk [] [] (ClusterStats.mk 0 0 0 0)
  else
    let sizes := filtered.map List.length
    ClusterResult.mk filtered res.2
      (ClusterStats.mk filtered.length sizes.sum (sizes.foldl max 0)
        ((sizes.sum : ℚ) / (sizes.length : ℚ)))

/-- Squared Euclidean distance between two 3-d points. -/
def sqDist (a b : ℚ × ℚ × ℚ) : ℚ :=
  (a.1 - b.1) ^ 2 + (a.2.1 - b.2.1) ^ 2 + (a.2.2 - b.2.2) ^ 2

/-- Coordinates of the clustering threshold scenario. -/
def exampleCoords : List (ℚ × ℚ × ℚ) := [(0, 0, 0), (10, 0, 0), (1000, 0, 0)]

/-- The pairwise Euclidean distance matrix of exampleCoords (the points are
collinear so all distances are exact rationals); squareform(pdist) is
symmetric with zero diagonal. -/
def exampleDM : ℕ → ℕ → ℚ := fun i j =>
  if (i = 0 ∧ j = 1) ∨ (i = 1 ∧ j = 0) then 10
  else if (i = 0 ∧ j = 2) ∨ (i = 2 ∧ j = 0) then 1000
  else if (i = 1 ∧ j = 2) ∨ (i = 2 ∧ j = 1) then 990
  else 0

/-! ## Lemmas: dedupFirst -/

theorem dedupFirst_loop_nodup {V : Type} [DecidableEq V] (l : List V) (acc : List V)
    (hacc : acc.Nodup) :
    (l.foldl (fun acc v => if v ∈ acc then acc else acc ++ [v]) acc).Nodup := by
  induction l generalizing acc with
  | nil => simpa using hacc
  | cons v rest ih =>
    simp only [List.foldl_cons]
    by_cases hv : v ∈ acc
    · simp only [if_pos hv]
      exact ih acc hacc
    · simp only [if_neg hv]
      exact ih (acc ++ [v]) (by simp [List.nodup_append, hacc, hv])

theorem dedupFirst_nodup {V : Type} [DecidableEq V] (l : List V) : (dedupFirst l).Nodup :=
  dedupFirst_loop_nodup l [] List.nodup_nil

theorem dedupFirst_loop_mem {V : Type} [DecidableEq V] (l : List V) (acc : List V) (x : V) :
    x ∈ l.foldl (fun acc v => if v ∈ acc then acc else acc ++ [v]) acc ↔ x ∈ acc ∨ x ∈ l := by
  induction l generalizing acc with
  | nil => simp
  | cons v rest ih =>
    simp only [List.foldl_cons]
    by_cases hv : v ∈ acc
    · rw [if_pos hv, ih]
      constructor
      · rintro (h | h)
        · exact Or.inl h
        · exact Or.inr (List.mem_cons_of_mem v h)
      · rintro (h | h)
        · exact Or.inl h
        · rcases List.mem_cons.1 h with rfl | h
          · exact Or.inl hv
          · exact Or.inr h
    · rw [if_neg hv, ih]
      simp only [List.mem_append, List.mem_singleton, List.mem_cons]
      tauto

theorem dedupFirst_mem {V : Type} [DecidableEq V] (l : List V) (x : V) :
    x ∈ dedupFirst l ↔ x ∈ l := by
  unfold dedupFirst
  rw [dedupFirst_loop_mem]
  simp

/-! ## Lemmas: classify_star structure -/

theorem classifyStep_foldl_fst {Row : Type} (key : Row → String) (P : List Row)
    (l : List String) (acc : List (String × List Row)) (st : StarData Row) :
    (l.foldl (classifyStep key P) (acc, st)).1
      = acc ++ l.map (fun v => (output_name v, P.filter (fun r => key r = v))) := by
  induction l generalizing acc st with
  | nil => simp
  | cons v rest ih =>
    simp only [List.foldl_cons, List.map_cons]
    rw [classifyStep, ih]
    simp

theorem classifyStep_foldl_snd {Row : Type} (key : Row → String) (P : List Row)
    (init : List String) (vlast : String) (acc : List (String × List Row))
    (st : StarData Row) :
    ((init ++ [vlast]).foldl (classifyStep key P) (acc, st)).2
      = StarData.mk (P.filter (fun r => key r = vlast)) := by
  rw [List.foldl_append]
  rfl

theorem classify_star_parts {Row : Type} (key : Row → String) (sd : StarData Row) :
    (classify_star key sd).1
      = (dedupFirst (sd.particles.map key)).map
          (fun v => (output_name v, sd.particles.filter (fun r => key r = v))) := by
  unfold classify_star
  rw [classifyStep_foldl_fst]
  simp

/-! ## Lemmas: grouping a list by the distinct values of a key -/

theorem filters_flatten_perm {Row : Type} (key : Row → String) (vs : List String)
    (l : List Row) (hnd : vs.Nodup) (hcov : ∀ r ∈ l, key r ∈ vs) :
    ((vs.map (fun v => l.filter (fun r => key r = v))).flatten).Perm l := by
  induction vs generalizing l with
  | nil =>
    cases l with
    | nil => simp
    | cons r rs => exact absurd (hcov r (List.mem_cons_self r rs)) (List.not_mem_nil _)
  | cons v rest ih =>
    simp only [List.map_cons, List.flatten_cons]
    have hvrest : v ∉ rest := (List.nodup_cons.1 hnd).1
    have hmapeq : rest.map (fun v' => l.filter (fun r => key r = v'))
        = rest.map (fun v' => (l.filter (fun r => !(decide (key r = v)))).filter
            (fun r => key r = v')) := by
      apply List.map_congr_left
      intro v' hv'
      rw [List.filter_filter]
      apply List.filter_congr
      intro r _
      by_cases h : key r = v'
      · have hkv : ¬ (key r = v) := by
          intro hh
          apply hvrest
          have hvv : v' = v := by rw [← h]; exact hh
          rw [← hvv]
          exact hv'
        have hne2 : ¬ (v' = v) := fun hvv => hvrest (hvv ▸ hv')
        simp [h, hkv, hne2]
      · simp [h]
    rw [hmapeq]
    have hperm := ih (l.filter (fun r => !(decide (key r = v)))) (List.nodup_cons.1 hnd).2
      (by
        intro r hr
        have hrl := (List.mem_filter.1 hr).1
        have hkeyne : ¬ (key r = v) := by
          have hb := (List.mem_filter.1 hr).2
          simpa using hb
        rcases List.mem_cons.1 (hcov r hrl) with h | h
        · exact absurd h hkeyne
        · exact h)
    exact ((hperm.append_left (l.filter (fun r => key r = v))).trans
      (List.filter_append_perm (fun r => decide (key r = v)) l))

theorem countP_eq_one_of_nodup_mem {V : Type} [DecidableEq V] (vs : List V) (a : V)
    (hnd : vs.Nodup) (hmem : a ∈ vs) :
    vs.countP (fun v => decide (a = v)) = 1 := by
  induction vs with
  | nil => exact absurd hmem (List.not_mem_nil a)
  | cons v rest ih =>
    rcases List.mem_cons.1 hmem with rfl | h
    · rw [List.countP_cons_of_pos _ _ (by simp)]
      have : rest.countP (fun v => decide (a = v)) = 0 := by
        rw [List.countP_eq_zero]
        intro x hx
        simp only [decide_eq_true_eq]
        rintro rfl
        exact (List.nodup_cons.1 hnd).1 hx
      omega
    · rw [List.countP_cons_of_neg _ _ (by
        simp only [decide_eq_true_eq]
        rintro rfl
        exact (List.nodup_cons.1 hnd).1 h)]
      exact ih (List.nodup_cons.1 hnd).2 h

/-! ## Lemmas: write_files -/

theorem assocSet_of_not_mem {K V : Type} [DecidableEq K] (fs : List (K × V)) (k : K) (v : V)
    (h : k ∉ fs.map Prod.fst) : assocSet fs k v = fs ++ [(k, v)] := by
  induction fs with
  | nil => rfl
  | cons p rest ih =>
    simp only [List.map_cons, List.mem_cons] at h
    push_neg at h
    show (if p.1 = k then (k, v) :: rest else (p.1, p.2) :: assocSet rest k v)
        = p :: rest ++ [(k, v)]
    rw [if_neg (fun hh => h.1 hh.symm), ih h.2]
    rfl

theorem write_files_loop_of_nodup {K V : Type} [DecidableEq K] (subs fs : List (K × V))
    (hnd : (subs.map Prod.fst).Nodup)
    (hdis : ∀ k ∈ subs.map Prod.fst, k ∉ fs.map Prod.fst) :
    subs.foldl (fun fs p => assocSet fs p.1 p.2) fs = fs ++ subs := by
  induction subs generalizing fs with
  | nil => simp
  | cons p rest ih =>
    simp only [List.foldl_cons]
    rw [assocSet_of_not_mem fs p.1 p.2 (hdis p.1 (by simp))]
    rw [ih (fs ++ [(p.1, p.2)]) (List.nodup_cons.1 (by simpa using hnd)).2]
    · simp
    · intro k hk
      simp only [List.map_append, List.mem_append, List.map_cons, List.map_nil,
        List.mem_singleton]
      rintro (h | h)
      · exact hdis k (by simp [hk]) h
      · have hne := (List.nodup_cons.1 (by simpa using hnd : (p.1 :: rest.map Prod.fst).Nodup)).1
        rw [h] at hk
        exact hne hk

theorem write_files_of_nodup {Row : Type} (subs : List (String × List Row))
    (hnd : (subs.map Prod.fst).Nodup) : write_files subs = subs := by
  unfold write_files
  rw [write_files_loop_of_nodup subs [] hnd (by simp)]
  simp

/-- C2 counterexample: a table of two rows whose tag values "a.x" and "a.y"
both derive the output file name "a.star", so the second written partition
file overwrites the first and row (0, "a.x") is in no written partition
file: the union of the written partition files' rows is not the table. -/
theorem classify_star_written_files_lose_rows :
    ((write_files (classify_star Prod.snd
        (StarData.mk [((0 : Nat), "a.x"), (1, "a.y")])).1).map Prod.snd).flatten
      = [(1, "a.y")]
    ∧ ((0 : Nat), "a.x") ∈ (StarData.mk [((0 : Nat), "a.x"), (1, "a.y")]).particles
    ∧ ((0 : Nat), "a.x") ∉ ((write_files (classify_star Prod.snd
        (StarData.mk [((0 : Nat), "a.x"), (1, "a.y")])).1).map Prod.snd).flatten := by
  decide

/-- C2 (amended): every row of the table belongs to exactly one partition
subset produced by classify_star — their concatenation is a permutation of
the table — and, provided the derived output file names are pairwise
distinct, the same holds for the written partition files. -/
theorem classify_star_partition_complete {Row : Type} [DecidableEq Row]
    (key : Row → String) (sd : StarData Row) :
    (((classify_star key sd).1.map Prod.snd).flatten).Perm sd.particles
    ∧ (∀ r ∈ sd.particles,
        ((classify_star key sd).1.map Prod.snd).countP (fun p => decide (r ∈ p)) = 1)
    ∧ (((classify_star key sd).1.map Prod.fst).Nodup →
        (((write_files (classify_star key sd).1).map Prod.snd).flatten).Perm sd.particles) := by
  have hparts : (classify_star key sd).1.map Prod.snd
      = (dedupFirst (sd.particles.map key)).map
          (fun v => sd.particles.filter (fun r => key r = v)) := by
    rw [classify_star_parts]
    simp [Function.comp]
  have hcov : ∀ r ∈ sd.particles, key r ∈ dedupFirst (sd.particles.map key) := by
    intro r hr
    rw [dedupFirst_mem]
    exact List.mem_map_of_mem key hr
  have hperm : (((classify_star key sd).1.map Prod.snd).flatten).Perm sd.particles := by
    rw [hparts]
    exact filters_flatten_perm key _ sd.particles (dedupFirst_nodup _) hcov
  refine ⟨hperm, ?_, ?_⟩
  · intro r hr
    rw [hparts, List.countP_map]
    have : ((fun p => decide (r ∈ p)) ∘ fun v => sd.particles.filter (fun r => key r = v))
        = fun v => decide (key r = v) := by
      funext v
      simp only [Function.comp_apply, decide_eq_decide, List.mem_filter,
        decide_eq_true_eq]
      exact ⟨fun h => h.2, fun h => ⟨hr, h⟩⟩
    rw [this]
    exact countP_eq_one_of_nodup_mem _ _ (dedupFirst_nodup _) (hcov r hr)
  · intro hnd
    rw [write_files_of_nodup _ hnd]
    exact hperm

/-- Closed instance of the amended C2 at a table whose output file names do
not collide: the written partition files' rows are exactly the table's. -/
theorem classify_star_partition_complete_witness :
    (((write_files (classify_star Prod.snd
        (StarData.mk [((0 : Nat), "a"), (1, "b")])).1).map Prod.snd).flatten).Perm
      [((0 : Nat), "a"), (1, "b")] :=
  (classify_star_partition_complete Prod.snd
    (StarData.mk [((0 : Nat), "a"), (1, "b")])).2.2 (by decide)

/-- C10: classify_star mutates its star_data argument in place: with at
least two distinct grouping values, after it returns, the particles entry is
the subset of the last partition written, not the original table; and
prepare_star_data returns exactly that mutated star data. -/
theorem classify_star_mutates_to_last_partition {Row : Type} (key : Row → String)
    (sd : StarData Row) (h2 : 2 ≤ (dedupFirst (sd.particles.map key)).length) :
    ∃ vlast, (dedupFirst (sd.particles.map key)).getLast? = some vlast
      ∧ (classify_star key sd).2.particles
          = sd.particles.filter (fun r => key r = vlast)
      ∧ (classify_star key sd).2.particles ≠ sd.particles
      ∧ (prepare_star_data key sd).1.particles
          = sd.particles.filter (fun r => key r = vlast) := by
  have hne : dedupFirst (sd.particles.map key) ≠ [] := by
    intro h
    rw [h] at h2
    simp at h2
  have hsnd : (classify_star key sd).2.particles
      = sd.particles.filter
          (fun r => key r = (dedupFirst (sd.particles.map key)).getLast hne) := by
    unfold classify_star
    conv_lhs => rw [← List.dropLast_append_getLast hne]
    rw [classifyStep_foldl_snd]
  refine ⟨(dedupFirst (sd.particles.map key)).getLast hne,
    List.getLast?_eq_getLast _ hne, hsnd, ?_, ?_⟩
  · rw [hsnd]
    intro heq
    obtain ⟨v0, rest, hvs⟩ : ∃ v0 rest, dedupFirst (sd.particles.map key) = v0 :: rest := by
      cases hd : dedupFirst (sd.particles.map key) with
      | nil => exact absurd hd hne
      | cons a b => exact ⟨a, b, rfl⟩
    have hrestne : rest ≠ [] := by
      intro h
      rw [hvs, h] at h2
      simp at h2
    have hlast_mem : (dedupFirst (sd.particles.map key)).getLast hne ∈ rest := by
      have : (dedupFirst (sd.particles.map key)).getLast hne
          = (v0 :: rest).getLast (by simp) := by
        congr 1
      rw [this, List.getLast_cons hrestne]
      exact List.getLast_mem hrestne
    have hv0ne : v0 ≠ (dedupFirst (sd.particles.map key)).getLast hne := by
      intro h
      have hnd := dedupFirst_nodup (sd.particles.map key)
      rw [hvs] at hnd
      exact (List.nodup_cons.1 hnd).1 (h ▸ hlast_mem)
    have hv0mem : v0 ∈ sd.particles.map key := by
      rw [← dedupFirst_mem, hvs]
      exact List.mem_cons_self v0 rest
    rcases List.mem_map.1 hv0mem with ⟨r0, hr0, hkey⟩
    have hr0f : r0 ∈ sd.particles.filter
        (fun r => key r = (dedupFirst (sd.particles.map key)).getLast hne) := by
      rw [heq]
      exact hr0
    rcases List.mem_filter.1 hr0f with ⟨_, hk⟩
    rw [decide_eq_true_eq] at hk
    exact hv0ne (hkey ▸ hk)
  · show (classify_star key sd).2.particles = _
    exact hsnd

/-- Closed instance of C10: for the two-row table with distinct tag values
"a" and "b", the mutated particles entry is the "b" subset, one row only. -/
theorem classify_star_mutates_witness :
    2 ≤ (dedupFirst ((["a", "b"] : List String).map (fun r => r))).length
    ∧ ∃ vlast,
        (dedupFirst ((["a", "b"] : List String).map (fun r => r))).getLast? = some vlast
        ∧ (classify_star (fun r => r) (StarData.mk ["a", "b"])).2.particles
            = (["a", "b"] : List String).filter (fun r => r = vlast)
        ∧ (classify_star (fun r => r) (StarData.mk ["a", "b"])).2.particles ≠ ["a", "b"]
        ∧ (prepare_star_data (fun r => r) (StarData.mk ["a", "b"])).1.particles
            = (["a", "b"] : List String).filter (fun r => r = vlast) :=
  ⟨by decide, classify_star_mutates_to_last_partition (fun r => r)
    (StarData.mk ["a", "b"]) (by decide)⟩

/-! ## Theorems: parallel executor (C3) -/

theorem collectGets_error {β : Type} (rs : List (Except PyError β))
    (h : ∃ r ∈ rs, ∃ e, r = Except.error e) :
    ∃ e, collectGets rs = Except.error e := by
  induction rs with
  | nil =>
    rcases h with ⟨r, hr, _⟩
    exact absurd hr (List.not_mem_nil r)
  | cons r rest ih =>
    cases r with
    | error e =>
      exact ⟨e, rfl⟩
    | ok b =>
      rcases h with ⟨r', hr', e', he'⟩
      rcases List.mem_cons.1 hr' with rfl | hmem
      · exact absurd he' (by simp)
      · rcases ih ⟨r', hmem, e', he'⟩ with ⟨e, he⟩
        refine ⟨e, ?_⟩
        show collectGets (Except.ok b :: rest) = Except.error e
        unfold collectGets
        rw [he]

/-- C3: if the per-partition function raises for any single partition, the
whole parallel_process_tomograms call aborts with a ProcessingError wrapping
the original message, and no per-partition result list is returned. -/
theorem parallel_process_aborts_on_failure {α β : Type} (star_files : List α)
    (process_func : α → Except PyError β)
    (h : ∃ x ∈ star_files, ∃ e, process_func x = Except.error e) :
    (∃ m, parallel_process_tomograms star_files process_func
        = Except.error (PyError.processingError ("Parallel processing failed: " ++ m)))
    ∧ ∀ l, parallel_process_tomograms star_files process_func ≠ Except.ok l := by
  have herr : ∃ e, collectGets (star_files.map process_func) = Except.error e := by
    apply collectGets_error
    rcases h with ⟨x, hx, e, he⟩
    exact ⟨process_func x, List.mem_map_of_mem process_func hx, e, he⟩
  rcases herr with ⟨e, he⟩
  constructor
  · refine ⟨e.str, ?_⟩
    unfold parallel_process_tomograms
    rw [he]
  · intro l hl
    unfold parallel_process_tomograms at hl
    rw [he] at hl
    exact Except.noConfusion hl

/-- Closed instance of C3: a single partition whose worker raises makes the
whole call return a ProcessingError and no result list. -/
theorem parallel_process_aborts_witness :
    (∃ m, parallel_process_tomograms [(0 : Nat)]
        (fun _ => (Except.error (PyError.otherError "boom") : Except PyError Nat))
        = Except.error (PyError.processingError ("Parallel processing failed: " ++ m)))
    ∧ ∀ l, parallel_process_tomograms [(0 : Nat)]
        (fun _ => (Except.error (PyError.otherError "boom") : Except PyError Nat))
        ≠ Except.ok l :=
  parallel_process_aborts_on_failure [(0 : Nat)]
    (fun _ => (Except.error (PyError.otherError "boom") : Except PyError Nat))
    ⟨0, by simp, PyError.otherError "boom", rfl⟩

/-! ## Theorems: analyzer error boundary (C9) -/

/-- C9: a caller of BaseAnalyzer.process observes either the combined
result, or a single AnalysisError whose message preserves the original
failure's message — whatever stage of the body raised, and whatever
exception type it raised. -/
theorem process_wraps_all_errors {A B C : Type} (prepare : Except PyError A)
    (run_parallel : A → Except PyError B) (combine : B → Except PyError C)
    (report : C → Except PyError Unit) :
    (∃ c, processBody prepare run_parallel combine report = Except.ok c
      ∧ BaseAnalyzer_process prepare run_parallel combine report = Except.ok c)
    ∨ (∃ e, processBody prepare run_parallel combine report = Except.error e
      ∧ BaseAnalyzer_process prepare run_parallel combine report
          = Except.error (PyError.analysisError ("Analysis failed: " ++ PyError.str e))) := by
  cases hb : processBody prepare run_parallel combine report with
  | ok c =>
    left
    refine ⟨c, rfl, ?_⟩
    unfold BaseAnalyzer_process
    rw [hb]
  | error e =>
    right
    refine ⟨e, rfl, ?_⟩
    unfold BaseAnalyzer_process
    rw [hb]

/-! ## Theorems: shell_normalize guards (C4) -/

theorem EFloat.gtZero_cases (x : EFloat) (h : x.gtZero = true) :
    x = EFloat.inf ∨ ∃ q, x = EFloat.fin q ∧ 0 < q := by
  cases x with
  | inf => exact Or.inl rfl
  | nan => exact absurd h (by simp [EFloat.gtZero])
  | ninf => exact absurd h (by simp [EFloat.gtZero])
  | fin q =>
    right
    exact ⟨q, rfl, by simpa [EFloat.gtZero] using h⟩

theorem EFloat.div_fin_fin_of_ne (a b : ℚ) (hb : b ≠ 0) :
    EFloat.div (EFloat.fin a) (EFloat.fin b) = EFloat.fin (a / b) := by
  simp [EFloat.div, hb]

theorem shell_norm_n_zero (bins : List ℚ) (bv : EFloat) (i : ℕ) :
    shell_norm bins bv 0 i = EFloat.nan ∨ shell_norm bins bv 0 i = EFloat.fin 0 := by
  unfold shell_norm
  cases bv with
  | nan => exact Or.inl rfl
  | inf => exact Or.inr (by simp [EFloat.div, EFloat.mul])
  | ninf => exact Or.inr (by simp [EFloat.div, EFloat.mul])
  | fin b =>
    by_cases hb : b = 0
    · exact Or.inl (by simp [EFloat.div, EFloat.mul, hb])
    · exact Or.inr (by simp [EFloat.div, EFloat.mul, hb])

theorem shell_norm_pos_n_ne_zero (bins : List ℚ) (bv : EFloat) (n : ℕ) (i : ℕ)
    (h : EFloat.gtZero (shell_norm bins bv n i) = true) : n ≠ 0 := by
  rintro rfl
  rcases shell_norm_n_zero bins bv i with hz | hz <;>
    rw [hz] at h <;> simp [EFloat.gtZero] at h

theorem shell_normalize_bin_fin (hist bins : List ℚ) (bv : EFloat) (n : ℕ) (i : ℕ) :
    ∃ q : ℚ,
      (if EFloat.gtZero (shell_norm bins bv n i) then
        EFloat.div
          (EFloat.div (EFloat.fin (hist.getD i 0)) (EFloat.fin (n : ℚ)))
          (shell_norm bins bv n i)
      else EFloat.fin 0) = EFloat.fin q := by
  by_cases hmask : EFloat.gtZero (shell_norm bins bv n i) = true
  · rw [if_pos hmask]
    have hn : (n : ℚ) ≠ 0 := by
      exact_mod_cast shell_norm_pos_n_ne_zero bins bv n i hmask
    rw [EFloat.div_fin_fin_of_ne _ _ hn]
    rcases EFloat.gtZero_cases _ hmask with hinf | ⟨p, hfin, hp⟩
    · rw [hinf]
      exact ⟨0, rfl⟩
    · rw [hfin, EFloat.div_fin_fin_of_ne _ _ (ne_of_gt hp)]
      exact ⟨_, rfl⟩
  · rw [if_neg hmask]
    exact ⟨0, rfl⟩

theorem shell_normalize_bin_zero_of_bv_zero (hist bins : List ℚ) (n : ℕ) (i : ℕ) :
    (if EFloat.gtZero (shell_norm bins (EFloat.fin 0) n i) then
      EFloat.div
        (EFloat.div (EFloat.fin (hist.getD i 0)) (EFloat.fin (n : ℚ)))
        (shell_norm bins (EFloat.fin 0) n i)
    else EFloat.fin 0) = EFloat.fin 0 := by
  by_cases hmask : EFloat.gtZero (shell_norm bins (EFloat.fin 0) n i) = true
  · rw [if_pos hmask]
    have hn : n ≠ 0 := shell_norm_pos_n_ne_zero bins (EFloat.fin 0) n i hmask
    have hnq : (0 : ℚ) < (n : ℚ) := by
      exact_mod_cast Nat.pos_of_ne_zero hn
    have hdens : EFloat.div (EFloat.fin (n : ℚ)) (EFloat.fin 0) = EFloat.inf := by
      simp [EFloat.div, ne_of_gt hnq, hnq]
    have hnorm : shell_norm bins (EFloat.fin 0) n i
        = EFloat.mul EFloat.inf (EFloat.fin (shell_volume bins i)) := by
      rw [shell_norm, hdens]
    rw [EFloat.div_fin_fin_of_ne _ _ (ne_of_gt hnq)]
    rcases EFloat.gtZero_cases _ hmask with hinf | ⟨p, hfin, hp⟩
    · rw [hinf]
      rfl
    · exfalso
      rw [hnorm] at hfin
      by_cases hsv : 0 < shell_volume bins i
      · rw [show EFloat.mul EFloat.inf (EFloat.fin (shell_volume bins i)) = EFloat.inf
          from by simp [EFloat.mul, hsv]] at hfin
        exact EFloat.noConfusion hfin
      · by_cases hsv2 : shell_volume bins i < 0
        · rw [show EFloat.mul EFloat.inf (EFloat.fin (shell_volume bins i)) = EFloat.ninf
            from by simp [EFloat.mul, hsv, hsv2]] at hfin
          exact EFloat.noConfusion hfin
        · rw [show EFloat.mul EFloat.inf (EFloat.fin (shell_volume bins i)) = EFloat.nan
            from by simp [EFloat.mul, hsv, hsv2]] at hfin
          exact EFloat.noConfusion hfin
  · rw [if_neg hmask]

/-- C4: shell_normalize is total on every histogram, bin-edge list, box
volume (including a box volume of 0 and a particle count of 0, the
threshold-degenerate cases) and particle count: it returns one value per
bin, every returned value is finite (never NaN or +-inf, and no exception
is raised since every numpy operation involved is total), every bin whose
expected-count denominator is zero is exactly 0, and for box volume 0 every
bin is exactly 0. -/
theorem shell_normalize_never_fails (hist bins : List ℚ) (bv : EFloat) (n : ℕ) :
    (shell_normalize hist bins bv n).length = bins.length - 1
    ∧ (∀ x ∈ shell_normalize hist bins bv n, ∃ q : ℚ, x = EFloat.fin q)
    ∧ (∀ i, i < bins.length - 1 → shell_norm bins bv n i = EFloat.fin 0 →
        (shell_normalize hist bins bv n).getD i EFloat.nan = EFloat.fin 0)
    ∧ (bv = EFloat.fin 0 → ∀ x ∈ shell_normalize hist bins bv n, x = EFloat.fin 0) := by
  refine ⟨by simp [shell_normalize], ?_, ?_, ?_⟩
  · intro x hx
    rw [shell_normalize] at hx
    rcases List.mem_map.1 hx with ⟨i, _, hval⟩
    rcases shell_normalize_bin_fin hist bins bv n i with ⟨q, hq⟩
    exact ⟨q, by rw [← hval, hq]⟩
  · intro i hi hzero
    rw [shell_normalize, List.getD_eq_getElem?_getD, List.getElem?_map,
      List.getElem?_range hi]
    have hmask : EFloat.gtZero (shell_norm bins bv n i) = false := by
      rw [hzero]
      simp [EFloat.gtZero]
    simp [hmask]
  · rintro rfl x hx
    rw [shell_normalize] at hx
    rcases List.mem_map.1 hx with ⟨i, _, hval⟩
    rw [← hval]
    exact shell_normalize_bin_zero_of_bv_zero hist bins n i

/-- Closed instance of C4 at the degenerate box volume 0: every bin of the
normalized histogram is exactly 0. -/
theorem shell_normalize_never_fails_witness :
    ∀ x ∈ shell_normalize [1] [0, 1] (EFloat.fin 0) 2, x = EFloat.fin 0 :=
  (shell_normalize_never_fails [1] [0, 1] (EFloat.fin 0) 2).2.2.2 rfl

/-! ## Theorems: radial analyzer with insufficient particles (C5) -/

theorem apply_min_mask_zeros (m : ℚ) (centers : List ℚ) (arr : List EFloat)
    (h : ∀ y ∈ arr, y = EFloat.fin 0) :
    ∀ x ∈ apply_min_mask m centers arr, x = EFloat.fin 0 := by
  induction centers generalizing arr with
  | nil =>
    intro x hx
    simp [apply_min_mask] at hx
  | cons c cs ih =>
    cases arr with
    | nil =>
      intro x hx
      simp [apply_min_mask] at hx
    | cons a as =>
      intro x hx
      rw [apply_min_mask, List.zipWith_cons_cons] at hx
      rcases List.mem_cons.1 hx with rfl | hx2
      · by_cases hc : c < m
        · simp [hc]
        · rw [if_neg hc]
          exact h a (by simp)
      · exact ih as (fun y hy => h y (by simp [hy])) x hx2

theorem collect_foldl (l : List (String × RadialResult)) (acc : CollectedData) :
    (l.foldl collect_step acc).dfs
      = acc.dfs ++ l.filter (fun p => !p.2.insufficient_particles)
    ∧ (l.foldl collect_step acc).skipped
      = acc.skipped ++ (l.filter (fun p => p.2.insufficient_particles)).map Prod.fst := by
  induction l generalizing acc with
  | nil => simp
  | cons p rest ih =>
    simp only [List.foldl_cons]
    by_cases hp : p.2.insufficient_particles = true
    · have hstep : collect_step acc p = { acc with skipped := acc.skipped ++ [p.1] } := by
        rw [collect_step, if_pos hp]
      rw [hstep]
      rcases ih { acc with skipped := acc.skipped ++ [p.1] } with ⟨h1, h2⟩
      constructor
      · rw [h1]
        simp [List.filter_cons, hp]
      · rw [h2]
        simp [List.filter_cons, hp]
    · have hstep : collect_step acc p
          = { dfs := acc.dfs ++ [p]
              all_distances := acc.all_distances ++ p.2.raw_distances
              density_data := acc.density_data ++
                (if 0 < p.2.particle_density then [(p.1, p.2.particle_density)] else [])
              skipped := acc.skipped } := by
        rw [collect_step, if_neg hp]
      rw [hstep]
      rcases ih _ with ⟨h1, h2⟩
      constructor
      · rw [h1]
        simp [List.filter_cons, hp]
      · rw [h2]
        simp [List.filter_cons, hp]

/-- C5: on a coordinate set with fewer than 3 particles, the radial
analyzer returns all-zero g(r), local-density and distance-weighted arrays
with the insufficient_particles flag set; such a partition writes no data
file, and the collect stage that feeds the combine step's per-bin averages
excludes it (it is only recorded in the skipped list). -/
theorem radial_insufficient_particles (cfg : RadialConfig) (coords : List (ℚ × ℚ × ℚ))
    (dm : ℕ → ℕ → ℚ) (h : coords.length < 3) :
    (∀ x ∈ (RadialAnalyzer_analyze cfg coords dm).g_r, x = EFloat.fin 0)
    ∧ (∀ x ∈ (RadialAnalyzer_analyze cfg coords dm).local_density, x = EFloat.fin 0)
    ∧ (∀ x ∈ (RadialAnalyzer_analyze cfg coords dm).distance_weighted, x = EFloat.fin 0)
    ∧ (RadialAnalyzer_analyze cfg coords dm).insufficient_particles = true
    ∧ (∀ tomo : String, RadialAnalyzer_save tomo (RadialAnalyzer_analyze cfg coords dm) = [])
    ∧ (∀ results : List (String × RadialResult),
        (collect_tomogram_data results).dfs
          = results.filter (fun p => !p.2.insufficient_particles)
        ∧ (collect_tomogram_data results).skipped
          = (results.filter (fun p => p.2.insufficient_particles)).map Prod.fst) := by
  have hd : calculate_distributions (triu_distances coords.length dm) (create_bins cfg)
      (calculate_box_volume coords (triu_distances coords.length dm) coords.length)
      coords.length
      = (List.replicate ((create_bins cfg).length - 1) (EFloat.fin 0),
         List.replicate ((create_bins cfg).length - 1) (EFloat.fin 0),
         List.replicate ((create_bins cfg).length - 1) (EFloat.fin 0), true) := by
    rw [calculate_distributions, if_pos h]
  have hzero : ∀ y ∈ List.replicate ((create_bins cfg).length - 1) (EFloat.fin 0),
      y = EFloat.fin 0 := fun y hy => List.eq_of_mem_replicate hy
  have hflag : (RadialAnalyzer_analyze cfg coords dm).insufficient_particles = true := by
    simp only [RadialAnalyzer_analyze, hd]
  refine ⟨?_, ?_, ?_, hflag, ?_, ?_⟩
  · intro x hx
    simp only [RadialAnalyzer_analyze, hd] at hx
    exact apply_min_mask_zeros _ _ _ hzero x hx
  · intro x hx
    simp only [RadialAnalyzer_analyze, hd] at hx
    exact apply_min_mask_zeros _ _ _ hzero x hx
  · intro x hx
    simp only [RadialAnalyzer_analyze, hd] at hx
    exact apply_min_mask_zeros _ _ _ hzero x hx
  · intro tomo
    rw [RadialAnalyzer_save, if_pos hflag]
  · intro results
    have hc := collect_foldl results (CollectedData.mk [] [] [] [])
    rcases hc with ⟨h1, h2⟩
    exact ⟨by simpa using h1, by simpa using h2⟩

/-- Closed instance of C5 at an empty coordinate set with the default
radial configuration. -/
theorem radial_insufficient_particles_witness :
    (([] : List (ℚ × ℚ × ℚ)).length < 3)
    ∧ (RadialAnalyzer_analyze (RadialConfig.mk 50 175 7000) [] (fun _ _ => 0)
        ).insufficient_particles = true :=
  ⟨by decide,
    (radial_insufficient_particles (RadialConfig.mk 50 175 7000) [] (fun _ _ => 0)
      (by decide)).2.2.2.1⟩

/-! ## Theorems: Euler-angle conversion (C6) -/

/-- C6 counterexample: at (rot, tilt, psi) = (90, 90, 0) degrees the code's
result — scipy's EXTRINSIC zyz composition, since the axis string is the
lower-case 'zyz' — is (-1, 0, 0), while the INTRINSIC Z-Y-Z composition the
spec describes gives (0, 1, 0); the claim as stated is false. -/
theorem euler_to_vector_not_intrinsic :
    euler_to_vector 90 90 0 ≠ euler_to_vector_intrinsic 90 90 0 := by
  have h90 : deg2rad 90 = Real.pi / 2 := by rw [deg2rad]; ring
  have h0 : deg2rad 0 = 0 := by rw [deg2rad]; ring
  simp only [euler_to_vector, euler_to_vector_intrinsic, scipy_from_euler_zyz_apply,
    rotZ, rotY, h90, h0, Real.cos_pi_div_two, Real.sin_pi_div_two, Real.cos_zero,
    Real.sin_zero, ne_eq, V3.mk.injEq]
  intro hcontra
  rcases hcontra with ⟨hx, hy, hz⟩
  norm_num at hx hy hz

/-- C6 (amended): euler_to_vector applies an EXTRINSIC z-y-z rotation
composed from (rot, tilt, psi) to the unit vector (0, 0, 1) and negates the
first component — equivalently, the intrinsic Z-Y-Z composition with the
angle order reversed, giving
(-sin tilt cos psi, sin tilt sin psi, cos tilt). -/
theorem euler_to_vector_extrinsic (rot tilt psi : ℝ) :
    euler_to_vector rot tilt psi = euler_to_vector_intrinsic psi tilt rot
    ∧ euler_to_vector rot tilt psi
        = V3.mk (-(Real.sin (deg2rad tilt) * Real.cos (deg2rad psi)))
            (Real.sin (deg2rad tilt) * Real.sin (deg2rad psi))
            (Real.cos (deg2rad tilt)) := by
  constructor
  · rfl
  · simp only [euler_to_vector, scipy_from_euler_zyz_apply, rotZ, rotY, V3.mk.injEq]
    refine ⟨?_, ?_, ?_⟩ <;> ring

/-! ## Theorems: orientation angle clamp and range (C7) -/

/-- C7: the orientation angle is always within [0, 180] degrees (the dot
product is clipped to [-1, 1] before the inverse cosine, whose range is
[0, pi]), and the angle of any non-zero vector with itself is exactly 0. -/
theorem orientation_angle_range_and_self (v1 v2 : V3)
    (h1 : v1.x ^ 2 + v1.y ^ 2 + v1.z ^ 2 ≠ 0) :
    (0 ≤ calculate_orientation_angle v1 v2 ∧ calculate_orientation_angle v1 v2 ≤ 180)
    ∧ calculate_orientation_angle v1 v1 = 0 := by
  have hpi : (0 : ℝ) < 180 / Real.pi := by positivity
  refine ⟨⟨?_, ?_⟩, ?_⟩
  · exact mul_nonneg (Real.arccos_nonneg _) (le_of_lt hpi)
  · calc calculate_orientation_angle v1 v2
        ≤ Real.pi * (180 / Real.pi) :=
          mul_le_mul_of_nonneg_right (Real.arccos_le_pi _) (le_of_lt hpi)
      _ = 180 := by field_simp
  · have hsumpos : 0 < v1.x ^ 2 + v1.y ^ 2 + v1.z ^ 2 :=
      lt_of_le_of_ne (by positivity) (Ne.symm h1)
    have hn2 : vnorm v1 ^ 2 = v1.x ^ 2 + v1.y ^ 2 + v1.z ^ 2 :=
      Real.sq_sqrt (le_of_lt hsumpos)
    have hnpos : 0 < vnorm v1 := Real.sqrt_pos.2 hsumpos
    have hdot : vdot (vnormalize v1) (vnormalize v1) = 1 := by
      rw [vdot]
      simp only [vnormalize]
      rw [div_mul_div_comm, div_mul_div_comm, div_mul_div_comm, div_add_div_same,
        div_add_div_same]
      have hden : vnorm v1 * vnorm v1 = v1.x ^ 2 + v1.y ^ 2 + v1.z ^ 2 := by
        rw [← pow_two]
        exact hn2
      have hnum : v1.x * v1.x + v1.y * v1.y + v1.z * v1.z
          = v1.x ^ 2 + v1.y ^ 2 + v1.z ^ 2 := by ring
      rw [hden, hnum]
      exact div_self h1
    rw [calculate_orientation_angle, hdot]
    rw [min_eq_left (le_refl 1), max_eq_right (by norm_num : (-1 : ℝ) ≤ 1)]
    rw [Real.arccos_one, zero_mul]

/-- Closed instance of C7 at the non-zero vector (1, 0, 0). -/
theorem orientation_angle_witness :
    ((V3.mk 1 0 0).x ^ 2 + (V3.mk 1 0 0).y ^ 2 + (V3.mk 1 0 0).z ^ 2 ≠ 0)
    ∧ ((0 ≤ calculate_orientation_angle (V3.mk 1 0 0) (V3.mk 1 0 0)
        ∧ calculate_orientation_angle (V3.mk 1 0 0) (V3.mk 1 0 0) ≤ 180)
      ∧ calculate_orientation_angle (V3.mk 1 0 0) (V3.mk 1 0 0) = 0) :=
  ⟨by norm_num, orientation_angle_range_and_self (V3.mk 1 0 0) (V3.mk 1 0 0)
    (by norm_num)⟩

/-! ## Theorems: union-find cluster partition (C1) -/

theorem dictInsert_flatten_perm (d : List (ℕ × List ℕ)) (k i : ℕ) :
    (((dictInsert d k i).map Prod.snd).flatten).Perm ((d.map Prod.snd).flatten ++ [i]) := by
  induction d with
  | nil => simp [dictInsert]
  | cons e rest ih =>
    rcases e with ⟨k', vs⟩
    rw [dictInsert]
    by_cases hk : k' = k
    · rw [if_pos hk]
      simp only [List.map_cons, List.flatten_cons]
      rw [List.append_assoc, List.append_assoc]
      exact List.Perm.append_left vs List.perm_append_comm
    · rw [if_neg hk]
      simp only [List.map_cons, List.flatten_cons]
      rw [List.append_assoc]
      exact List.Perm.append_left vs ih

theorem collect_loop_flatten_perm (l : List ℕ) (uf : UnionFind) (d : List (ℕ × List ℕ)) :
    (((l.foldl collectStep (uf, d)).2.map Prod.snd).flatten).Perm
      ((d.map Prod.snd).flatten ++ l) := by
  induction l generalizing uf d with
  | nil => simp
  | cons i rest ih =>
    rw [List.foldl_cons]
    have hstep : collectStep (uf, d) i
        = ((uf.find i).1, dictInsert d (uf.find i).2 i) := rfl
    rw [hstep]
    refine (ih (uf.find i).1 (dictInsert d (uf.find i).2 i)).trans ?_
    refine (List.Perm.append_right rest (dictInsert_flatten_perm d (uf.find i).2 i)).trans ?_
    rw [List.append_assoc]
    exact List.Perm.refl _

theorem find_particle_clusters_flatten_perm (n : ℕ) (adj : ℕ → ℕ → Bool) :
    ((find_particle_clusters n adj).1.flatten).Perm (List.range n) := by
  have h := collect_loop_flatten_perm (List.range n)
    ((triuPairs n adj).foldl (fun uf p => uf.union p.1 p.2) (UnionFind.init n)) []
  simpa [find_particle_clusters, collectClusters] using h

theorem histAdd_lookup (h : List (ℕ × ℕ)) (t s : ℕ) :
    histLookup (histAdd h t) s = histLookup h s + (if t = s then 1 else 0) := by
  induction h with
  | nil =>
    by_cases hts : t = s <;> simp [histAdd, histLookup, hts]
  | cons e rest ih =>
    rcases e with ⟨u, c⟩
    rw [histAdd]
    by_cases hu : u = t
    · rw [if_pos hu]
      by_cases hts : t = s <;> simp [histLookup, hu, hts]
    · rw [if_neg hu]
      by_cases hus : u = s
      · have hts : ¬ (t = s) := fun h => hu (hus ▸ h ▸ rfl)
        simp [histLookup, hus, hts]
      · simp [histLookup, hus, ih]

theorem hist_foldl_lookup (cs : List (List ℕ)) (h : List (ℕ × ℕ)) (s : ℕ) :
    histLookup (cs.foldl (fun h c => histAdd h c.length) h) s
      = histLookup h s + cs.countP (fun c => c.length = s) := by
  induction cs generalizing h with
  | nil => simp
  | cons c rest ih =>
    rw [List.foldl_cons, ih, histAdd_lookup, List.countP_cons]
    by_cases hc : c.length = s <;> simp [hc] <;> omega

theorem range_getD_self (n i : ℕ) : (List.range n).getD i i = i := by
  rw [List.getD_eq_getElem?_getD]
  by_cases h : i < n
  · rw [List.getElem?_range h]
    rfl
  · rw [List.getElem?_eq_none (by simpa using le_of_not_lt h)]
    rfl

theorem getD_set_ne (l : List ℕ) (x v j d : ℕ) (h : j ≠ x) :
    (l.set x v).getD j d = l.getD j d := by
  rw [List.getD_eq_getElem?_getD, List.getD_eq_getElem?_getD,
    List.getElem?_set_ne (Ne.symm h)]

theorem getD_set_self (l : List ℕ) (x v d : ℕ) :
    (l.set x v).getD x d = if x < l.length then v else d := by
  rw [List.getD_eq_getElem?_getD, List.getElem?_set]
  by_cases h : x < l.length <;> simp [h]

theorem isolatedInv_init (n i : ℕ) : isolatedInv i (UnionFind.init n) := by
  constructor
  · exact range_getD_self n i
  · intro j hj
    show (List.range n).getD j j ≠ i
    rw [range_getD_self n j]
    exact hj

theorem findAux_isolated (i : ℕ) (fuel : ℕ) :
    ∀ (uf : UnionFind) (x : ℕ), isolatedInv i uf → x ≠ i →
      (UnionFind.findAux fuel uf x).2 ≠ i
      ∧ isolatedInv i (UnionFind.findAux fuel uf x).1 := by
  induction fuel with
  | zero =>
    intro uf x hP hx
    exact ⟨hx, hP⟩
  | succ fuel ih =>
    intro uf x hP hx
    simp only [UnionFind.findAux]
    by_cases hpx : uf.parent.getD x x = x
    · rw [if_pos hpx]
      exact ⟨hx, hP⟩
    · rw [if_neg hpx]
      have hpne : uf.parent.getD x x ≠ i := hP.2 x hx
      have hrec := ih uf (uf.parent.getD x x) hP hpne
      refine ⟨hrec.1, ?_, ?_⟩
      · show ((UnionFind.findAux fuel uf (uf.parent.getD x x)).1.parent.set x
            (UnionFind.findAux fuel uf (uf.parent.getD x x)).2).getD i i = i
        rw [getD_set_ne _ _ _ _ _ (Ne.symm hx)]
        exact hrec.2.1
      · intro j hj
        show ((UnionFind.findAux fuel uf (uf.parent.getD x x)).1.parent.set x
            (UnionFind.findAux fuel uf (uf.parent.getD x x)).2).getD j j ≠ i
        by_cases hjx : j = x
        · rw [hjx, getD_set_self]
          by_cases hlen : x < (UnionFind.findAux fuel uf (uf.parent.getD x x)).1.parent.length
          · rw [if_pos hlen]
            exact hrec.1
          · rw [if_neg hlen]
            exact hjx ▸ hj
        · rw [getD_set_ne _ _ _ _ _ hjx]
          exact hrec.2.2 j hj

theorem findAux_self_isolated (i fuel : ℕ) (uf : UnionFind) (hP : isolatedInv i uf) :
    UnionFind.findAux fuel uf i = (uf, i) := by
  cases fuel with
  | zero => rfl
  | succ fuel =>
    simp only [UnionFind.findAux]
    rw [if_pos hP.1]

theorem isolatedInv_mk_set (i : ℕ) (l : List ℕ) (px py : ℕ) (R S : List ℕ)
    (h1 : l.getD i i = i) (h2 : ∀ j, j ≠ i → l.getD j j ≠ i)
    (hpx : px ≠ i) (hpy : py ≠ i) :
    isolatedInv i (UnionFind.mk (l.set py px) R S) := by
  constructor
  · show (l.set py px).getD i i = i
    rw [getD_set_ne _ _ _ _ _ (Ne.symm hpy)]
    exact h1
  · intro j hj
    show (l.set py px).getD j j ≠ i
    by_cases hjp : j = py
    · subst hjp
      rw [getD_set_self]
      by_cases hlen : j < l.length
      · simpa [hlen] using hpx
      · simpa [hlen] using hj
    · rw [getD_set_ne _ _ _ _ _ hjp]
      exact h2 j hj

theorem union_isolated (i : ℕ) (uf : UnionFind) (x y : ℕ) (hP : isolatedInv i uf)
    (hx : x ≠ i) (hy : y ≠ i) : isolatedInv i (uf.union x y) := by
  have h1 := findAux_isolated i uf.parent.length uf x hP hx
  have hpx0 : (uf.find x).2 ≠ i := h1.1
  have hP1 : isolatedInv i (uf.find x).1 := h1.2
  have h2 := findAux_isolated i (uf.find x).1.parent.length (uf.find x).1 y hP1 hy
  have hpy0 : ((uf.find x).1.find y).2 ≠ i := h2.1
  have hP2 : isolatedInv i ((uf.find x).1.find y).1 := h2.2
  simp only [UnionFind.union]
  by_cases heq : (uf.find x).2 = ((uf.find x).1.find y).2
  · rw [if_pos heq]
    exact hP2
  · rw [if_neg heq]
    by_cases hlt : ((uf.find x).1.find y).1.rank.getD (uf.find x).2 0
        < ((uf.find x).1.find y).1.rank.getD (((uf.find x).1.find y).2) 0
    · simp only [if_pos hlt]
      by_cases hre : (((uf.find x).1.find y).1.rank.getD (((uf.find x).1.find y).2) 0)
          = (((uf.find x).1.find y).1.rank.getD ((uf.find x).2) 0)
      · rw [if_pos hre]
        exact isolatedInv_mk_set i _ _ _ _ _ hP2.1 hP2.2 hpy0 hpx0
      · rw [if_neg hre]
        exact isolatedInv_mk_set i _ _ _ _ _ hP2.1 hP2.2 hpy0 hpx0
    · simp only [if_neg hlt]
      by_cases hre : (((uf.find x).1.find y).1.rank.getD ((uf.find x).2) 0)
          = (((uf.find x).1.find y).1.rank.getD (((uf.find x).1.find y).2) 0)
      · rw [if_pos hre]
        exact isolatedInv_mk_set i _ _ _ _ _ hP2.1 hP2.2 hpx0 hpy0
      · rw [if_neg hre]
        exact isolatedInv_mk_set i _ _ _ _ _ hP2.1 hP2.2 hpx0 hpy0

theorem foldl_union_isolated (i : ℕ) (pairs : List (ℕ × ℕ)) (uf : UnionFind)
    (hP : isolatedInv i uf) (hpairs : ∀ p ∈ pairs, p.1 ≠ i ∧ p.2 ≠ i) :
    isolatedInv i (pairs.foldl (fun uf p => uf.union p.1 p.2) uf) := by
  induction pairs generalizing uf with
  | nil => exact hP
  | cons p rest ih =>
    rw [List.foldl_cons]
    have hp := hpairs p (List.mem_cons_self p rest)
    exact ih (uf.union p.1 p.2) (union_isolated i uf p.1 p.2 hP hp.1 hp.2)
      (fun q hq => hpairs q (List.mem_cons_of_mem p hq))

theorem triuPairs_ne_isolated (n : ℕ) (adj : ℕ → ℕ → Bool) (i : ℕ)
    (hsymm : ∀ a, a < n → ∀ b, b < n → adj a b = adj b a)
    (hiso : ∀ j, j < n → adj i j = false) :
    ∀ p ∈ triuPairs n adj, p.1 ≠ i ∧ p.2 ≠ i := by
  intro p hp
  rw [triuPairs, List.mem_flatMap] at hp
  rcases hp with ⟨a, ha, hp⟩
  rcases List.mem_map.1 hp with ⟨b, hb, rfl⟩
  rcases List.mem_filter.1 hb with ⟨hbr, hcond⟩
  have hbn : b < n := List.mem_range.1 hbr
  have han : a < n := List.mem_range.1 ha
  have hadj : adj a b = true := by
    rw [Bool.and_eq_true] at hcond
    exact hcond.2
  constructor
  · rintro rfl
    rw [hiso b hbn] at hadj
    exact Bool.noConfusion hadj
  · rintro rfl
    rw [hsymm a han b hbn, hiso a han] at hadj
    exact Bool.noConfusion hadj

theorem dictInsert_mem_ne (i : ℕ) (d : List (ℕ × List ℕ)) (k j : ℕ) (vs : List ℕ)
    (hk : k ≠ i) : (i, vs) ∈ dictInsert d k j ↔ (i, vs) ∈ d := by
  induction d with
  | nil =>
    simp only [dictInsert, List.mem_singleton, List.not_mem_nil, iff_false]
    intro h
    exact hk (congrArg Prod.fst h).symm
  | cons e rest ih =>
    rcases e with ⟨k', vs'⟩
    rw [dictInsert]
    by_cases hk' : k' = k
    · rw [if_pos hk']
      subst hk'
      constructor
      · intro h
        rcases List.mem_cons.1 h with h | h
        · exact absurd (congrArg Prod.fst h).symm hk
        · exact List.mem_cons_of_mem _ h
      · intro h
        rcases List.mem_cons.1 h with h | h
        · exact absurd (congrArg Prod.fst h).symm hk
        · exact List.mem_cons_of_mem _ h
    · rw [if_neg hk']
      constructor
      · intro h
        rcases List.mem_cons.1 h with h | h
        · exact h ▸ List.mem_cons_self _ _
        · exact List.mem_cons_of_mem _ ((ih).1 h)
      · intro h
        rcases List.mem_cons.1 h with h | h
        · exact h ▸ List.mem_cons_self _ _
        · exact List.mem_cons_of_mem _ ((ih).2 h)

theorem dictInsert_no_key (i : ℕ) (d : List (ℕ × List ℕ)) (k j : ℕ) (hk : k ≠ i)
    (hd : ∀ e ∈ d, e.1 ≠ i) : ∀ e ∈ dictInsert d k j, e.1 ≠ i := by
  induction d with
  | nil =>
    intro e he
    rw [dictInsert, List.mem_singleton] at he
    rw [he]
    exact hk
  | cons f rest ih =>
    rcases f with ⟨k', vs'⟩
    intro e he
    rw [dictInsert] at he
    by_cases hk' : k' = k
    · rw [if_pos hk'] at he
      rcases List.mem_cons.1 he with rfl | hmem
      · exact hk
      · exact hd e (List.mem_cons_of_mem _ hmem)
    · rw [if_neg hk'] at he
      rcases List.mem_cons.1 he with rfl | hmem
      · exact hd _ (List.mem_cons_self _ _)
      · exact ih (fun f hf => hd f (List.mem_cons_of_mem _ hf)) e hmem

theorem dictInsert_fresh (i : ℕ) (d : List (ℕ × List ℕ)) (hd : ∀ e ∈ d, e.1 ≠ i) :
    dictInsert d i i = d ++ [(i, [i])] := by
  induction d with
  | nil => rfl
  | cons e rest ih =>
    rcases e with ⟨k', vs'⟩
    have hk' : k' ≠ i := hd (k', vs') (List.mem_cons_self _ _)
    rw [dictInsert, if_neg hk', ih (fun f hf => hd f (List.mem_cons_of_mem _ hf))]
    rfl

theorem collect_loop_no_key (i : ℕ) (l : List ℕ) (hl : ∀ j ∈ l, j ≠ i) :
    ∀ (uf : UnionFind) (d : List (ℕ × List ℕ)), isolatedInv i uf →
      (∀ e ∈ d, e.1 ≠ i) →
      (∀ e ∈ (l.foldl collectStep (uf, d)).2, e.1 ≠ i)
      ∧ isolatedInv i (l.foldl collectStep (uf, d)).1 := by
  induction l with
  | nil =>
    intro uf d hP hd
    exact ⟨hd, hP⟩
  | cons j rest ih =>
    intro uf d hP hd
    rw [List.foldl_cons]
    have hj : j ≠ i := hl j (List.mem_cons_self j rest)
    have hfind := findAux_isolated i uf.parent.length uf j hP hj
    have hstep : collectStep (uf, d) j = ((uf.find j).1, dictInsert d (uf.find j).2 j) := rfl
    rw [hstep]
    exact ih (fun q hq => hl q (List.mem_cons_of_mem j hq)) (uf.find j).1
      (dictInsert d (uf.find j).2 j) hfind.2
      (dictInsert_no_key i d (uf.find j).2 j hfind.1 hd)

theorem collect_loop_mem_preserved (i : ℕ) (vs : List ℕ) (l : List ℕ)
    (hl : ∀ j ∈ l, j ≠ i) :
    ∀ (uf : UnionFind) (d : List (ℕ × List ℕ)), isolatedInv i uf →
      (i, vs) ∈ d → (i, vs) ∈ (l.foldl collectStep (uf, d)).2 := by
  induction l with
  | nil =>
    intro uf d _ hmem
    exact hmem
  | cons j rest ih =>
    intro uf d hP hmem
    rw [List.foldl_cons]
    have hj : j ≠ i := hl j (List.mem_cons_self j rest)
    have hfind := findAux_isolated i uf.parent.length uf j hP hj
    have hstep : collectStep (uf, d) j = ((uf.find j).1, dictInsert d (uf.find j).2 j) := rfl
    rw [hstep]
    exact ih (fun q hq => hl q (List.mem_cons_of_mem j hq)) (uf.find j).1
      (dictInsert d (uf.find j).2 j) hfind.2
      ((dictInsert_mem_ne i d (uf.find j).2 j vs hfind.1).2 hmem)

theorem collect_isolated_singleton (n i : ℕ) (uf : UnionFind)
    (hP : isolatedInv i uf) (hin : i < n) :
    (i, [i]) ∈ (collectClusters n uf).2 := by
  have hsplit : List.range n = List.range i ++ i :: List.range' (i + 1) (n - i - 1) := by
    have h1 := List.range'_append 0 i (n - i) 1
    rw [show (0 + 1 * i) = i from by omega, show (n - i + i) = n from by omega] at h1
    have h2 : List.range' i (n - i) = i :: List.range' (i + 1) (n - i - 1) := by
      rw [show (n - i) = (n - i - 1) + 1 from by omega, List.range'_succ]
      simp
    rw [List.range_eq_range', ← h1, h2, List.range_eq_range']
  rw [collectClusters, hsplit, List.foldl_append]
  have hpre := collect_loop_no_key i (List.range i)
    (fun j hj => by
      have := List.mem_range.1 hj
      omega)
    uf [] hP (by simp)
  rw [List.foldl_cons]
  have hfind : ((List.range i).foldl collectStep (uf, [])).1.find i
      = (((List.range i).foldl collectStep (uf, [])).1, i) :=
    findAux_self_isolated i _ _ hpre.2
  have hstep : collectStep ((List.range i).foldl collectStep (uf, [])) i
      = (((List.range i).foldl collectStep (uf, [])).1,
         dictInsert ((List.range i).foldl collectStep (uf, [])).2 i i) := by
    show (((((List.range i).foldl collectStep (uf, [])).1.find i)).1, _)
        = (((List.range i).foldl collectStep (uf, [])).1, _)
    rw [hfind]
  rw [hstep, dictInsert_fresh i _ hpre.1]
  apply collect_loop_mem_preserved i [i] (List.range' (i + 1) (n - i - 1))
    (fun j hj => by
      rcases List.mem_range'.1 hj with ⟨c, _, rfl⟩
      omega)
    _ _ hpre.2
  exact List.mem_append.2 (Or.inr (List.mem_singleton_self _))

/-- C1: for every symmetric, false-diagonal boolean adjacency relation on n
particles, find_particle_clusters returns clusters that are pairwise
disjoint and whose concatenation is a permutation of the index set
0..n-1 (every particle in exactly one cluster); every particle with no
adjacency-true pair appears as the singleton cluster [i]; and the returned
size histogram maps each size to the number of returned clusters of that
size. -/
theorem find_particle_clusters_partition (n : ℕ) (adj : ℕ → ℕ → Bool)
    (hsymm : ∀ a, a < n → ∀ b, b < n → adj a b = adj b a)
    (hdiag : ∀ a, a < n → adj a a = false) :
    ((find_particle_clusters n adj).1.flatten).Perm (List.range n)
    ∧ List.Pairwise List.Disjoint (find_particle_clusters n adj).1
    ∧ (∀ i, i < n → (∀ j, j < n → adj i j = false) →
        [i] ∈ (find_particle_clusters n adj).1)
    ∧ (∀ s, histLookup (find_particle_clusters n adj).2 s
        = (find_particle_clusters n adj).1.countP (fun c => c.length = s)) := by
  have hperm := find_particle_clusters_flatten_perm n adj
  have hnodup : (find_particle_clusters n adj).1.flatten.Nodup :=
    hperm.symm.nodup (List.nodup_range n)
  refine ⟨hperm, (List.nodup_flatten.1 hnodup).2, ?_, ?_⟩
  · intro i hin hiso
    have hP1 : isolatedInv i
        ((triuPairs n adj).foldl (fun uf p => uf.union p.1 p.2) (UnionFind.init n)) :=
      foldl_union_isolated i (triuPairs n adj) (UnionFind.init n) (isolatedInv_init n i)
        (triuPairs_ne_isolated n adj i hsymm hiso)
    have hmem := collect_isolated_singleton n i _ hP1 hin
    show [i] ∈ (collectClusters n
        ((triuPairs n adj).foldl (fun uf p => uf.union p.1 p.2) (UnionFind.init n))).2.map
        Prod.snd
    exact List.mem_map_of_mem Prod.snd hmem
  · intro s
    show histLookup (((collectClusters n
        ((triuPairs n adj).foldl (fun uf p => uf.union p.1 p.2) (UnionFind.init n))).2.map
        Prod.snd).foldl (fun h c => histAdd h c.length) []) s = _
    rw [hist_foldl_lookup]
    simp only [histLookup, Nat.zero_add]
    rfl

/-- Closed instance of C1 on three particles with the single adjacency
0-1. -/
theorem find_particle_clusters_partition_witness :
    (∀ a, a < 3 → ∀ b, b < 3 →
      (fun a b => decide ((a = 0 ∧ b = 1) ∨ (a = 1 ∧ b = 0))) a b
        = (fun a b => decide ((a = 0 ∧ b = 1) ∨ (a = 1 ∧ b = 0))) b a)
    ∧ ((find_particle_clusters 3
        (fun a b => decide ((a = 0 ∧ b = 1) ∨ (a = 1 ∧ b = 0)))).1.flatten).Perm
        (List.range 3) :=
  ⟨by decide,
    (find_particle_clusters_partition 3
      (fun a b => decide ((a = 0 ∧ b = 1) ∨ (a = 1 ∧ b = 0)))
      (by decide) (by decide)).1⟩

/-! ## Theorems: cluster analyzer scenario (C8) -/

theorem triuPairs_congr (n : ℕ) (f g : ℕ → ℕ → Bool)
    (h : ∀ i j, i < n → j < n → f i j = g i j) : triuPairs n f = triuPairs n g := by
  rw [triuPairs, triuPairs, List.flatMap_def, List.flatMap_def]
  apply congrArg List.flatten
  apply List.map_congr_left
  intro i hi
  apply congrArg
  apply List.filter_congr
  intro j hj
  rw [h i j (List.mem_range.1 hi) (List.mem_range.1 hj)]

/-- C8: on the collinear coordinates (0,0,0), (10,0,0), (1000,0,0) —
exampleDM being their exact Euclidean distance matrix — with threshold 50
the adjacency relation is true exactly on the pair 0-1 (distances 10 <= 50;
990, 1000 > 50; false diagonal); with min_cluster_size 1 the returned
clusters are [0,1] and [2] with statistics (2 clusters, 3 particles,
largest 2, mean 3/2); with min_cluster_size 2 only [0,1] survives, with
statistics (1 cluster, 2 particles, largest 2, mean 2). -/
theorem cluster_analyze_scenario :
    (∀ i, i < 3 → ∀ j, j < 3 →
      (exampleDM i j) ^ 2
          = sqDist (exampleCoords.getD i (0, 0, 0)) (exampleCoords.getD j (0, 0, 0))
        ∧ 0 ≤ exampleDM i j)
    ∧ (∀ i, i < 3 → ∀ j, j < 3 →
        ClusterAnalyzer_adjacency (ClusterConfig.mk 50 1) exampleDM i j
          = decide ((i, j) = (0, 1) ∨ (i, j) = (1, 0)))
    ∧ (ClusterAnalyzer_analyze (ClusterConfig.mk 50 1) 3 exampleDM).clusters = [[0, 1], [2]]
    ∧ (ClusterAnalyzer_analyze (ClusterConfig.mk 50 1) 3 exampleDM).statistics
        = ClusterStats.mk 2 3 2 (3 / 2)
    ∧ (ClusterAnalyzer_analyze (ClusterConfig.mk 50 2) 3 exampleDM).clusters = [[0, 1]]
    ∧ (ClusterAnalyzer_analyze (ClusterConfig.mk 50 2) 3 exampleDM).statistics
        = ClusterStats.mk 1 2 2 2 := by
  have hadj : ∀ i, i < 3 → ∀ j, j < 3 →
      ClusterAnalyzer_adjacency (ClusterConfig.mk 50 1) exampleDM i j
        = decide ((i, j) = (0, 1) ∨ (i, j) = (1, 0)) := by
    intro i hi j hj
    interval_cases i <;> interval_cases j <;> decide
  have htriu : triuPairs 3 (ClusterAnalyzer_adjacency (ClusterConfig.mk 50 1) exampleDM)
      = [(0, 1)] := by
    rw [triuPairs_congr 3 _ (fun i j => decide ((i, j) = (0, 1) ∨ (i, j) = (1, 0)))
      (fun i j hi hj => hadj i hi j hj)]
    decide
  have hfp : find_particle_clusters 3
      (ClusterAnalyzer_adjacency (ClusterConfig.mk 50 1) exampleDM)
      = ([[0, 1], [2]], [(2, 1), (1, 1)]) := by
    simp only [find_particle_clusters]
    rw [htriu]
    decide
  have hadjeq : ClusterAnalyzer_adjacency (ClusterConfig.mk 50 2) exampleDM
      = ClusterAnalyzer_adjacency (ClusterConfig.mk 50 1) exampleDM := rfl
  have hana1 : ClusterAnalyzer_analyze (ClusterConfig.mk 50 1) 3 exampleDM
      = ClusterResult.mk [[0, 1], [2]] [(2, 1), (1, 1)] (ClusterStats.mk 2 3 2 (3 / 2)) := by
    simp only [ClusterAnalyzer_analyze, hfp]
    norm_num [ClusterResult.mk.injEq, ClusterStats.mk.injEq]
  have hana2 : ClusterAnalyzer_analyze (ClusterConfig.mk 50 2) 3 exampleDM
      = ClusterResult.mk [[0, 1]] [(2, 1), (1, 1)] (ClusterStats.mk 1 2 2 2) := by
    simp only [ClusterAnalyzer_analyze, hadjeq, hfp]
    norm_num [ClusterResult.mk.injEq, ClusterStats.mk.injEq]
  refine ⟨?_, hadj, ?_, ?_, ?_, ?_⟩
  · intro i hi j hj
    interval_cases i <;> interval_cases j <;>
      norm_num [exampleDM, exampleCoords, sqDist]
  · rw [hana1]
  · rw [hana1]
  · rw [hana2]
  · rw [hana2]

end StarHandler
